import Mathlib

/-!
Verification of the CSR graph container and traversal views of the
graph-v2 repository.

The embedding models, from `src/include/graph/container/csr_graph.hpp`:
  * `csr_graph_base::load_edges` (const-reference overload, lines 579-626),
    with the `assert` preconditions elevated to the errors named by the
    specification (`NotEmpty`, `OutOfOrder`);
  * `csr_row_values::load_row_values` (lines 143-159) and
    `csr_graph_base::load_vertices` (lines 471-491), with the bounds
    `assert` elevated to `IdOutOfRange`;
  * the `tag_invoke` accessors `vertices(g)`, `edges(g, uid)` and
    `target_id(g, uv)` (lines 687-751);
and, from `src/include/graph/views/vertexlist_view.hpp`, the vertexlist
iterator state and its equality (lines 127-139).

Vertex ids and edge indexes are modelled as `Nat`; the C++ code uses
unsigned integers and every quantity involved stays far below any
overflow boundary in the scenarios of the specification, and the
construction algorithm itself only ever grows indexes by one, so `Nat`
is a faithful model of the arithmetic actually performed.

The container is generic over the edge-value type `EV`, which may be
`void`.  The two instantiations behave differently during the load:
the general `csr_col_values` stores one value per edge and its
`size()` is the number of stored values, while the `void`
specialization (lines 309-329) stores nothing and its `size()` is
constantly zero — and `load_edges` fills every `row_index_` resize
with exactly that `size()` (lines 605-606 and 618-619), not with
`col_index_.size()`.  The model mirrors this with a Boolean flag
`evp` (`!is_void_v<EV>`): when `evp = false`, the edge-value list is
never pushed to (it stays `[]`, so its length is the specialization's
constant zero) and the row-offset fill is that length, exactly as in
the source.

The depth-first-search engine of `depth_first_search.hpp` is not part of
the sources provided; it is modelled from the specification (its tests
`src/test/dfs_tests.cpp` are in the sources and agree with the model's
results on the concrete German-routes graph).
-/

/-- Error kinds surfaced by the loading phase, per section 7 of the
specification.  The C++ code checks the same conditions with `assert`;
the specification elevates them to defined errors. -/
inductive LoadError where
  | NotEmpty
  | OutOfOrder
  | IdOutOfRange
deriving DecidableEq, Repr

/-- Input-edge record: `copyable_edge_t<VId, EV>` with `VId = Nat`. -/
structure CopyableEdge (EV : Type) where
  source_id : Nat
  target_id : Nat
  value : EV
deriving DecidableEq, Repr

/-- The state of a `csr_graph_base`: the two parallel index arrays plus
the optional value arrays (`csr_col_values::v_` and `csr_row_values::v_`).
An absent value type is modelled by instantiating `EV`/`VV` with `Unit`. -/
structure CsrState (EV VV : Type) where
  row_index : List Nat
  col_index : List Nat
  e_values : List EV
  v_values : List VV
deriving DecidableEq, Repr

/-- A default-constructed graph: all four arrays empty. -/
def emptyState (EV VV : Type) : CsrState EV VV := ⟨[], [], [], []⟩

/-- `std::vector::resize(n, d)`: keep the first `n` elements, pad with
`d` up to length `n` (truncates when `n` is smaller than the length). -/
def resizeList (l : List α) (n : Nat) (d : α) : List α :=
  l.take n ++ List.replicate (n - l.length) d

/-- `csr_graph_base::last_erng_id` (lines 647-659): for a bidirectional
nonempty range, `max(source_id, target_id)` of the last record; zero
otherwise.  A Lean `List` plays the role of a bidirectional range. -/
def last_erng_id (es : List (CopyableEdge EV)) : Nat :=
  match es.getLast? with
  | some e => max e.source_id e.target_id
  | none => 0

/-- `if constexpr (!is_void_v<EV>) push_back(edge.value)` (lines
608-609): the edge-value vector grows only in the non-void
instantiation (`evp = true`). -/
def pushVal (evp : Bool) (vals : List EV) (v : EV) : List EV :=
  if evp then vals ++ [v] else vals

theorem pushVal_true (vals : List EV) (v : EV) : pushVal true vals v = vals ++ [v] := rfl

theorem pushVal_false (vals : List EV) (v : EV) : pushVal false vals v = vals := rfl

/-- The edge-ingestion loop of `load_edges` (lines 601-612).  State
carried: `row_index_`, `col_index_`, the edge-value vector, `last_uid`
and `max_vid`.  For each record `(s, t, v)`:
`assert(s >= last_uid)` (elevated to `OutOfOrder`), then
`row_index_.resize(s + 1, col_values_size)` where `col_values_size` is
`static_cast<col_values_base&>(*this).size()` taken before the push —
the size of the edge-VALUE vector (lines 605-606), which the void
specialization pins to zero; then `col_index_.push_back(t)`, the
guarded value push, `last_uid := s`, `max_vid := max(max_vid, t)`. -/
def loadLoop (evp : Bool) : List (CopyableEdge EV) → List Nat → List Nat → List EV → Nat → Nat →
    Except LoadError (List Nat × List Nat × List EV × Nat × Nat)
  | [], row, col, vals, last_uid, max_vid => .ok (row, col, vals, last_uid, max_vid)
  | e :: rest, row, col, vals, last_uid, max_vid =>
    if e.source_id < last_uid then
      .error .OutOfOrder
    else
      loadLoop evp rest (resizeList row (e.source_id + 1) vals.length)
        (col ++ [e.target_id]) (pushVal evp vals e.value) e.source_id (max max_vid e.target_id)

/-- `csr_graph_base::load_edges` (const-reference overload, lines
579-626).  The graph must be empty (`NotEmpty` otherwise; the check
reads `row_index_`, `col_index_` and the edge-value vector, whose
`empty()` is constantly true in the void specialization — matched here
by the value list staying `[]` whenever `evp = false`); an empty input
returns immediately; otherwise the vertex count is seeded from
`last_erng_id + 1`, the loop ingests the records, and `row_index_` is
resized to `vertex_count + 1` entries filled with the edge-value
vector's final size (lines 618-619) — the terminating sentinel, equal
to the column count only in the non-void instantiation.  If vertex
values were loaded earlier but are shorter than the vertex count they
are extended with defaults (line 624: `row_values_base::size() > 0`). -/
def load_edges (evp : Bool) [Inhabited VV] (g : CsrState EV VV) (es : List (CopyableEdge EV))
    (vertex_count : Nat) : Except LoadError (CsrState EV VV) :=
  if g.row_index.isEmpty && g.col_index.isEmpty && g.e_values.isEmpty then
    match es with
    | [] => .ok g
    | _ :: _ =>
      let vc := max vertex_count (last_erng_id es + 1)
      match loadLoop evp es g.row_index g.col_index g.e_values 0 0 with
      | .error err => .error err
      | .ok (row, col, vals, _, max_vid) =>
        let vc2 := max vc (max row.length (max_vid + 1))
        let row2 := resizeList row (vc2 + 1) vals.length
        let vv2 :=
          if 0 < g.v_values.length ∧ g.v_values.length < vc2 then
            resizeList g.v_values vc2 default
          else g.v_values
        .ok ⟨row2, col, vals, vv2⟩
  else .error .NotEmpty

/-- `vertices(g)` (tag_invoke, lines 687-698): the row handles without
the terminating row, or a truly empty range when `row_index_` is empty. -/
def verticesOf (g : CsrState EV VV) : List Nat :=
  if g.row_index.isEmpty then [] else g.row_index.dropLast

/-- `|V|`: the number of vertices enumerated by `vertices(g)`. -/
def numVertices (g : CsrState EV VV) : Nat :=
  if g.row_index.isEmpty then 0 else g.row_index.length - 1

/-- `edges(g, uid)` (tag_invoke, lines 723-736) followed by
`target_id` on each edge handle: the slice
`col_index_[row_index_[uid] .. row_index_[uid+1])`. -/
def edgeTargets (g : CsrState EV VV) (uid : Nat) : List Nat :=
  (g.col_index.drop (g.row_index.getD uid 0)).take
    (g.row_index.getD (uid + 1) 0 - g.row_index.getD uid 0)

/-- `edge_value` over `edges(g, uid)`: the same slice taken from the
parallel edge-value vector. -/
def edgeValuesAt (g : CsrState EV VV) (uid : Nat) : List EV :=
  (g.e_values.drop (g.row_index.getD uid 0)).take
    (g.row_index.getD (uid + 1) 0 - g.row_index.getD uid 0)

/-- The nine-edge German-routes input of section 8 of the
specification, sorted by `source_id`, with distances as edge values. -/
def germanyEdges : List (CopyableEdge Nat) :=
  [⟨0, 1, 85⟩, ⟨0, 4, 217⟩, ⟨0, 6, 173⟩, ⟨1, 2, 80⟩, ⟨2, 3, 250⟩,
   ⟨3, 8, 84⟩, ⟨4, 5, 103⟩, ⟨4, 7, 186⟩, ⟨5, 9, 183⟩]

/-- The CSR graph loaded from the German-routes edges (`EV = km`, a
non-void edge-value type, so `evp = true`). -/
def germanyGraph : CsrState Nat Unit :=
  match load_edges true (emptyState Nat Unit) germanyEdges 0 with
  | .ok g => g
  | .error _ => emptyState Nat Unit

/-- The inner assignment loop of `csr_row_values::load_row_values`
(lines 150-158): for each `(id, value)` pair, `assert(id < size())`
(elevated to `IdOutOfRange`) and then `v_[id] = value`. -/
def assignLoop : List VV → List (Nat × VV) → Except LoadError (List VV)
  | acc, [] => .ok acc
  | acc, (id, v) :: rest =>
    if id < acc.length then assignLoop (acc.set id v) rest
    else .error .IdOutOfRange

/-- `csr_row_values::load_row_values` (const-reference overload, lines
143-159): `vertex_count = max(vertex_count, size(vrng))` is computed
(and, exactly as in the source, never used afterwards), the vector is
resized to `size(vrng)`, and the pairs are assigned in order. -/
def load_row_values [Inhabited VV] (vvals : List VV) (vs : List (Nat × VV))
    (vertex_count : Nat) : Except LoadError (List VV) :=
  let _vc := max vertex_count vs.length
  assignLoop (resizeList vvals vs.length default) vs

/-- `csr_graph_base::load_vertices` (lines 471-491): forwards to
`load_row_values` with `max(vertex_count, size(vrng))`. -/
def load_vertices [Inhabited VV] (g : CsrState EV VV) (vs : List (Nat × VV))
    (vertex_count : Nat) : Except LoadError (CsrState EV VV) :=
  match load_row_values g.v_values vs (max vertex_count vs.length) with
  | .ok vv => .ok ⟨g.row_index, g.col_index, g.e_values, vv⟩
  | .error err => .error err

/-- The value assigned to `id` by the last pair of `vs` carrying `id`,
if any. -/
def lastAssigned (id : Nat) (vs : List (Nat × VV)) : Option VV :=
  ((vs.filter (fun p => p.1 == id)).getLast?).map (fun p => p.2)

theorem resizeList_length (l : List α) (n : Nat) (d : α) : (resizeList l n d).length = n := by
  simp only [resizeList, List.length_append, List.length_take, List.length_replicate]
  omega

theorem resizeList_of_le {l : List α} {n : Nat} (d : α) (h : l.length ≤ n) :
    resizeList l n d = l ++ List.replicate (n - l.length) d := by
  rw [resizeList, List.take_of_length_le h]

theorem chainLe_replicate (n c : Nat) : List.Chain' (· ≤ ·) (List.replicate n c) :=
  List.chain'_iff_pairwise.mpr (List.pairwise_replicate.mpr (Or.inr (le_refl c)))

/-- Invariant carried by the edge-ingestion loop: `row_index_` is
non-decreasing, every row offset is at most the current column count,
and the first offset is zero as soon as anything was ingested. -/
def RowColInv (row col : List Nat) : Prop :=
  List.Chain' (· ≤ ·) row ∧ (∀ x ∈ row, x ≤ col.length) ∧
  ((row = [] ∧ col = []) ∨ row.head? = some 0)

theorem RowColInv.step {row col : List Nat} {s t : Nat} (h : RowColInv row col) :
    RowColInv (resizeList row (s + 1) col.length) (col ++ [t]) := by
  obtain ⟨hchain, hle, hhead⟩ := h
  refine ⟨?_, ?_, ?_⟩
  · rw [resizeList]
    apply List.Chain'.append (hchain.take _) (chainLe_replicate _ _)
    intro x hx y hy
    have hxr : x ∈ row := List.mem_of_mem_take (List.mem_of_mem_getLast? hx)
    have hyc : y = col.length :=
      List.eq_of_mem_replicate (List.mem_of_mem_head? hy)
    rw [hyc]
    exact hle x hxr
  · intro x hx
    rw [resizeList] at hx
    rcases List.mem_append.mp hx with hx | hx
    · exact le_trans (hle x (List.mem_of_mem_take hx)) (by simp)
    · rw [List.eq_of_mem_replicate hx]
      simp
  · rcases hhead with ⟨hr, hc⟩ | hh
    · subst hr
      subst hc
      right
      simp [resizeList, List.replicate_succ]
    · right
      obtain ⟨tl, htl⟩ := List.head?_eq_some_iff.mp hh
      subst htl
      rw [resizeList, List.take_succ_cons, List.cons_append, List.head?_cons]

theorem loadLoop_inv {EV : Type} :
    ∀ {es : List (CopyableEdge EV)} {row col : List Nat} {vals : List EV} {lu mv : Nat}
      {row2 col2 : List Nat} {vals2 : List EV} {lu2 mv2 : Nat},
      loadLoop true es row col vals lu mv = .ok (row2, col2, vals2, lu2, mv2) →
      vals.length = col.length →
      RowColInv row col → RowColInv row2 col2 ∧ vals2.length = col2.length := by
  intro es
  induction es with
  | nil =>
    intro row col vals lu mv row2 col2 vals2 lu2 mv2 h hvc hinv
    simp only [loadLoop] at h
    cases h
    exact ⟨hinv, hvc⟩
  | cons e rest ih =>
    intro row col vals lu mv row2 col2 vals2 lu2 mv2 h hvc hinv
    simp only [loadLoop, pushVal_true] at h
    split at h
    · cases h
    · rw [hvc] at h
      refine ih h ?_ hinv.step
      simp [hvc]

theorem loadLoop_acc_col {EV : Type} (evp : Bool) :
    ∀ {es : List (CopyableEdge EV)} {row col : List Nat} {vals : List EV} {lu mv : Nat}
      {row2 col2 : List Nat} {vals2 : List EV} {lu2 mv2 : Nat},
      loadLoop evp es row col vals lu mv = .ok (row2, col2, vals2, lu2, mv2) →
      col2 = col ++ es.map (fun e => e.target_id) := by
  intro es
  induction es with
  | nil =>
    intro row col vals lu mv row2 col2 vals2 lu2 mv2 h
    simp only [loadLoop] at h
    cases h
    simp
  | cons e rest ih =>
    intro row col vals lu mv row2 col2 vals2 lu2 mv2 h
    simp only [loadLoop] at h
    split at h
    · cases h
    · rw [ih h]
      simp

theorem loadLoop_acc_vals {EV : Type} :
    ∀ {es : List (CopyableEdge EV)} {row col : List Nat} {vals : List EV} {lu mv : Nat}
      {row2 col2 : List Nat} {vals2 : List EV} {lu2 mv2 : Nat},
      loadLoop true es row col vals lu mv = .ok (row2, col2, vals2, lu2, mv2) →
      vals2 = vals ++ es.map (fun e => e.value) := by
  intro es
  induction es with
  | nil =>
    intro row col vals lu mv row2 col2 vals2 lu2 mv2 h
    simp only [loadLoop] at h
    cases h
    simp
  | cons e rest ih =>
    intro row col vals lu mv row2 col2 vals2 lu2 mv2 h
    simp only [loadLoop, pushVal_true] at h
    split at h
    · cases h
    · rw [ih h]
      simp

theorem loadLoop_target_le {EV : Type} (evp : Bool) :
    ∀ {es : List (CopyableEdge EV)} {row col : List Nat} {vals : List EV} {lu mv : Nat}
      {row2 col2 : List Nat} {vals2 : List EV} {lu2 mv2 : Nat},
      loadLoop evp es row col vals lu mv = .ok (row2, col2, vals2, lu2, mv2) →
      (∀ x ∈ col, x ≤ mv) → ∀ x ∈ col2, x ≤ mv2 := by
  intro es
  induction es with
  | nil =>
    intro row col vals lu mv row2 col2 vals2 lu2 mv2 h hb
    simp only [loadLoop] at h
    cases h
    exact hb
  | cons e rest ih =>
    intro row col vals lu mv row2 col2 vals2 lu2 mv2 h hb
    simp only [loadLoop] at h
    split at h
    · cases h
    · refine ih h ?_
      intro x hx
      rcases List.mem_append.mp hx with hx | hx
      · exact le_trans (hb x hx) (Nat.le_max_left _ _)
      · rw [List.mem_singleton.mp hx]
        exact Nat.le_max_right _ _

theorem loadLoop_row_len {EV : Type} (evp : Bool) :
    ∀ {es : List (CopyableEdge EV)} {row col : List Nat} {vals : List EV} {lu mv : Nat}
      {row2 col2 : List Nat} {vals2 : List EV} {lu2 mv2 : Nat},
      loadLoop evp es row col vals lu mv = .ok (row2, col2, vals2, lu2, mv2) →
      es ≠ [] → row2.length = lu2 + 1 := by
  intro es
  induction es with
  | nil =>
    intro row col vals lu mv row2 col2 vals2 lu2 mv2 _ hne
    exact absurd rfl hne
  | cons e rest ih =>
    intro row col vals lu mv row2 col2 vals2 lu2 mv2 h _
    simp only [loadLoop] at h
    split at h
    · cases h
    · rcases rest with _ | ⟨e2, rest2⟩
      · simp only [loadLoop] at h
        cases h
        exact resizeList_length _ _ _
      · exact ih h (by simp)

theorem load_edges_cons_ok {EV VV : Type} (evp : Bool) [Inhabited VV] {a : CopyableEdge EV}
    {rest : List (CopyableEdge EV)} {vc : Nat} {g2 : CsrState EV VV}
    (hok : load_edges evp (emptyState EV VV) (a :: rest) vc = .ok g2) :
    ∃ row col vals lu mv,
      loadLoop evp (a :: rest) ([] : List Nat) ([] : List Nat) ([] : List EV) 0 0 =
        .ok (row, col, vals, lu, mv) ∧
      g2 = ⟨resizeList row
              (max (max vc (last_erng_id (a :: rest) + 1)) (max row.length (mv + 1)) + 1)
              vals.length,
            col, vals, []⟩ := by
  simp only [load_edges, emptyState, List.isEmpty_nil, Bool.and_self, if_true] at hok
  rcases hloop : loadLoop evp (a :: rest) ([] : List Nat) ([] : List Nat) ([] : List EV) 0 0 with
    err | ⟨row, col, vals, lu, mv⟩
  · rw [hloop] at hok
    cases hok
  · rw [hloop] at hok
    simp only [List.length_nil, Nat.lt_irrefl, false_and, if_false] at hok
    cases hok
    exact ⟨row, col, vals, lu, mv, rfl, rfl⟩

/-- Structural facts about any successful non-void (`evp = true`)
`load_edges` into an empty graph with a nonempty input: the column
array is the input's targets, the value array is the input's values,
and `row_index_` is a non-decreasing offset list that starts at 0, ends
at the column count, and has `|V| + 1` entries, every target being a
valid vertex id.  (For `evp = false` the row-offset fill is the void
value vector's constant zero size and these facts fail; see the C1 and
C3 theorems.) -/
theorem load_edges_ok_facts {EV VV : Type} [Inhabited VV] {a : CopyableEdge EV}
    {rest : List (CopyableEdge EV)} {vc : Nat} {g2 : CsrState EV VV}
    (hok : load_edges true (emptyState EV VV) (a :: rest) vc = .ok g2) :
    g2.col_index = (a :: rest).map (fun e => e.target_id) ∧
    g2.e_values = (a :: rest).map (fun e => e.value) ∧
    List.Chain' (· ≤ ·) g2.row_index ∧
    g2.row_index.head? = some 0 ∧
    g2.row_index.getLast? = some g2.col_index.length ∧
    g2.row_index.length = numVertices g2 + 1 ∧
    (∀ x ∈ g2.col_index, x < numVertices g2) := by
  obtain ⟨row, col, vals, lu, mv, hloop, hg2x⟩ := load_edges_cons_ok true hok
  have hcol := loadLoop_acc_col true hloop
  have hvals := loadLoop_acc_vals hloop
  obtain ⟨hinv, hvalcol⟩ :=
    loadLoop_inv hloop rfl ⟨List.chain'_nil, by simp, Or.inl ⟨rfl, rfl⟩⟩
  have hg2 : g2 = ⟨resizeList row
      (max (max vc (last_erng_id (a :: rest) + 1)) (max row.length (mv + 1)) + 1)
      col.length, col, vals, []⟩ := by
    rw [hg2x, hvalcol]
  clear hg2x
  have hlen : row.length = lu + 1 := loadLoop_row_len true hloop (by simp)
  have hrowne : row ≠ [] := by
    intro h
    rw [h] at hlen
    cases hlen
  have hhead : row.head? = some 0 := by
    rcases hinv.2.2 with ⟨h, _⟩ | h
    · exact absurd h hrowne
    · exact h
  set vc2 := max (max vc (last_erng_id (a :: rest) + 1)) (max row.length (mv + 1)) with hvc2
  have hrlevc2 : row.length ≤ vc2 := le_trans (Nat.le_max_left _ _) (Nat.le_max_right _ _)
  have hpad : resizeList row (vc2 + 1) col.length =
      row ++ List.replicate (vc2 + 1 - row.length) col.length :=
    resizeList_of_le _ (le_trans hrlevc2 (Nat.le_succ _))
  have hpadpos : 0 < vc2 + 1 - row.length := by omega
  have hrow2 : g2.row_index = row ++ List.replicate (vc2 + 1 - row.length) col.length := by
    rw [hg2, ← hpad]
  have hrow2len : g2.row_index.length = vc2 + 1 := by
    rw [hg2]
    exact resizeList_length _ _ _
  have hrow2ne : g2.row_index ≠ [] := by
    intro h
    rw [h] at hrow2len
    cases hrow2len
  have hnv : numVertices g2 = vc2 := by
    rw [numVertices, if_neg (by simpa using hrow2ne), hrow2len]
    omega
  refine ⟨by rw [hg2, hcol]; simp, by rw [hg2, hvals]; simp, ?_, ?_, ?_, ?_, ?_⟩
  · rw [hrow2]
    apply List.Chain'.append hinv.1 (chainLe_replicate _ _)
    intro x hx y hy
    have hyc : y = col.length := List.eq_of_mem_replicate (List.mem_of_mem_head? hy)
    rw [hyc]
    exact hinv.2.1 x (List.mem_of_mem_getLast? hx)
  · rw [hrow2]
    obtain ⟨tl, htl⟩ := List.head?_eq_some_iff.mp hhead
    rw [htl, List.cons_append, List.head?_cons]
  · rw [hrow2, List.getLast?_append, List.getLast?_replicate, if_neg (by omega)]
    rw [hg2]
    rfl
  · rw [hrow2len, hnv]
  · intro x hx
    have hxcol : x ∈ col := by
      rw [hg2] at hx
      exact hx
    have := loadLoop_target_le true hloop (by simp) x hxcol
    rw [hnv]
    omega

theorem chainLe_le_getLast :
    ∀ (o : List Nat) (b : Nat), List.Chain' (· ≤ ·) (b :: o) →
      b ≤ ((b :: o).getLast?).getD 0 := by
  intro o
  induction o with
  | nil =>
    intro b _
    simp
  | cons c o' ih =>
    intro b h
    rw [List.getLast?_cons_cons]
    exact le_trans (List.chain'_cons.mp h).1 (ih c (List.chain'_cons.mp h).2)

/-- Concatenating the half-open slices of `col` cut at the consecutive
entries of a non-decreasing offset list reproduces the single slice
from the first offset to the last. -/
theorem flatten_slices {α : Type} (col : List α) :
    ∀ (o : List Nat) (a : Nat), List.Chain' (· ≤ ·) (a :: o) →
      (List.range o.length).flatMap
        (fun u => (col.drop ((a :: o).getD u 0)).take
          ((a :: o).getD (u + 1) 0 - (a :: o).getD u 0)) =
      (col.drop a).take (((a :: o).getLast?).getD 0 - a) := by
  intro o
  induction o with
  | nil =>
    intro a _
    simp
  | cons b o' ih =>
    intro a hchain
    have hab : a ≤ b := (List.chain'_cons.mp hchain).1
    have hchain2 : List.Chain' (· ≤ ·) (b :: o') := (List.chain'_cons.mp hchain).2
    have hbL : b ≤ (((b :: o').getLast?).getD 0) := chainLe_le_getLast o' b hchain2
    rw [List.length_cons, List.range_succ_eq_map, List.flatMap_cons]
    have htail :
        (List.map Nat.succ (List.range o'.length)).flatMap
          (fun u => (col.drop ((a :: b :: o').getD u 0)).take
            ((a :: b :: o').getD (u + 1) 0 - (a :: b :: o').getD u 0)) =
        (List.range o'.length).flatMap
          (fun u => (col.drop ((b :: o').getD u 0)).take
            ((b :: o').getD (u + 1) 0 - (b :: o').getD u 0)) := by
      rw [List.flatMap_map]
      rfl
    rw [htail, ih b hchain2, List.getLast?_cons_cons]
    have hdg : (a :: b :: o').getD 0 0 = a := rfl
    have hdg1 : (a :: b :: o').getD 1 0 = b := rfl
    rw [hdg, hdg1]
    have harith : ((b :: o').getLast?).getD 0 - a = (b - a) + (((b :: o').getLast?).getD 0 - b) := by
      omega
    rw [harith, List.take_add]
    congr 1
    rw [List.drop_drop]
    congr 2
    omega

/-- The round trip of the specification, proved for the non-void
edge-value instantiation (`evp = true`), where the row-offset fill —
the edge-value vector's size — coincides with the column count: for an
input edge list sorted non-decreasing by `source_id`, after
`load_edges` succeeds, concatenating the target ids yielded by
`edges(g, v)` for `v = 0, ..., |V|-1` reproduces the target ids of the
input in the exact input order, and the edge values are reproduced in
the same order. -/
theorem load_edges_round_trip_nonvoid (EV VV : Type) (inst : Inhabited VV)
    (es : List (CopyableEdge EV)) (vc : Nat) (g2 : CsrState EV VV)
    (hsorted : List.Chain' (fun x y => x.source_id ≤ y.source_id) es)
    (hok : load_edges true (emptyState EV VV) es vc = .ok g2) :
    (List.range (numVertices g2)).flatMap (edgeTargets g2) =
      es.map (fun e => e.target_id) ∧
    (List.range (numVertices g2)).flatMap (edgeValuesAt g2) =
      es.map (fun e => e.value) := by
  rcases es with _ | ⟨a, rest⟩
  · simp only [load_edges, emptyState, List.isEmpty_nil, Bool.and_self, if_true] at hok
    cases hok
    simp [numVertices, emptyState]
  · obtain ⟨hcol, hvals, hchain, hhead, hlast, hlen, _⟩ := load_edges_ok_facts hok
    obtain ⟨tl, htl⟩ := List.head?_eq_some_iff.mp hhead
    have hnv : numVertices g2 = tl.length := by
      rw [htl] at hlen
      simp only [List.length_cons] at hlen
      omega
    have hglast : ((0 :: tl).getLast?).getD 0 = g2.col_index.length := by
      rw [← htl, hlast]
      rfl
    have hchain0 : List.Chain' (· ≤ ·) (0 :: tl) := htl ▸ hchain
    constructor
    · have hfun : edgeTargets g2 = fun u =>
          (g2.col_index.drop ((0 :: tl).getD u 0)).take
            ((0 :: tl).getD (u + 1) 0 - (0 :: tl).getD u 0) := by
        funext u
        rw [edgeTargets, htl]
      rw [hnv, hfun, flatten_slices g2.col_index tl 0 hchain0, hglast]
      simp only [List.drop_zero, Nat.sub_zero, List.take_length]
      exact hcol
    · have hfun : edgeValuesAt g2 = fun u =>
          (g2.e_values.drop ((0 :: tl).getD u 0)).take
            ((0 :: tl).getD (u + 1) 0 - (0 :: tl).getD u 0) := by
        funext u
        rw [edgeValuesAt, htl]
      have hvlen : g2.e_values.length = g2.col_index.length := by
        rw [hcol, hvals]
        simp
      rw [hnv, hfun, flatten_slices g2.e_values tl 0 hchain0, hglast, ← hvlen]
      simp only [List.drop_zero, Nat.sub_zero, List.take_length]
      exact hvals

/-- Instantiation of the non-void round trip: the German-routes load
reproduces its nine targets and distances in input order. -/
theorem load_edges_round_trip_nonvoid_inst :
    (List.range (numVertices germanyGraph)).flatMap (edgeTargets germanyGraph) =
      germanyEdges.map (fun e => e.target_id) ∧
    (List.range (numVertices germanyGraph)).flatMap (edgeValuesAt germanyGraph) =
      germanyEdges.map (fun e => e.value) :=
  load_edges_round_trip_nonvoid Nat Unit inferInstance germanyEdges 0 germanyGraph
    (by norm_num [germanyEdges, List.chain'_cons]) (by rfl)

/-- The sorted two-edge list `(0,1) (1,0)` over the void edge-value
instantiation (`EV = void`, the template's default; the value slot is
unit and `evp = false`). -/
def voidPairEdges : List (CopyableEdge Unit) :=
  [⟨0, 1, ()⟩, ⟨1, 0, ()⟩]

/-- The graph the code builds from `voidPairEdges`: because every
`row_index_` resize is filled with `csr_col_values<void>::size() == 0`,
all row offsets are zero. -/
def voidPairGraph : CsrState Unit Unit := ⟨[0, 0, 0], [1, 0], [], []⟩

/-- Claim C1 (code bug): at the void edge-value instantiation the
round trip fails.  Loading the sorted list `(0,1) (1,0)` succeeds and
produces all-zero row offsets — the fill is the edge-value vector's
size (csr_graph.hpp:605-606 and 618-619), constantly 0 for `EV = void`
— so flattening `edges(g, v)` over `v = 0, 1` yields `[]` instead of
the input targets `[1, 0]`. -/
theorem c1_round_trip_void_breaks :
    load_edges false (emptyState Unit Unit) voidPairEdges 0 = .ok voidPairGraph ∧
    numVertices voidPairGraph = 2 ∧
    (List.range (numVertices voidPairGraph)).flatMap (edgeTargets voidPairGraph) = [] ∧
    voidPairEdges.map (fun e => e.target_id) = [1, 0] ∧
    ([] : List Nat) ≠ [1, 0] := by
  refine ⟨rfl, rfl, rfl, rfl, by decide⟩

/-- The structural invariants of the specification, proved for the
non-void edge-value instantiation (`evp = true`): after any successful
load, `row_offsets` is non-decreasing, starts at 0, ends (at index
`|V|`) at `|col_targets|`, and every column target is a valid vertex
id (`< |V|`).  Offsets are read with a defaulted lookup so the empty
graph (empty input, no sentinel row) is covered by the same statement. -/
theorem load_edges_invariants_nonvoid (EV VV : Type) (inst : Inhabited VV)
    (es : List (CopyableEdge EV)) (vc : Nat) (g2 : CsrState EV VV)
    (hok : load_edges true (emptyState EV VV) es vc = .ok g2) :
    List.Chain' (· ≤ ·) g2.row_index ∧
    g2.row_index.getD 0 0 = 0 ∧
    g2.row_index.getD (numVertices g2) 0 = g2.col_index.length ∧
    ∀ t ∈ g2.col_index, t < numVertices g2 := by
  rcases es with _ | ⟨a, rest⟩
  · simp only [load_edges, emptyState, List.isEmpty_nil, Bool.and_self, if_true] at hok
    cases hok
    exact ⟨List.chain'_nil, rfl, rfl, by simp [emptyState]⟩
  · obtain ⟨hcol, hvals, hchain, hhead, hlast, hlen, htlt⟩ := load_edges_ok_facts hok
    obtain ⟨tl, htl⟩ := List.head?_eq_some_iff.mp hhead
    refine ⟨hchain, ?_, ?_, htlt⟩
    · rw [htl]
      rfl
    · have hnv : numVertices g2 = g2.row_index.length - 1 := by
        omega
      rw [List.getD_eq_getElem?_getD, hnv, ← List.getLast?_eq_getElem?, hlast]
      rfl

/-- Instantiation of the non-void invariants on the loaded
German-routes graph. -/
theorem load_edges_invariants_nonvoid_inst :
    List.Chain' (· ≤ ·) germanyGraph.row_index ∧
    germanyGraph.row_index.getD 0 0 = 0 ∧
    germanyGraph.row_index.getD (numVertices germanyGraph) 0 =
      germanyGraph.col_index.length ∧
    ∀ t ∈ germanyGraph.col_index, t < numVertices germanyGraph :=
  load_edges_invariants_nonvoid Nat Unit inferInstance germanyEdges 0 germanyGraph (by rfl)

/-- Claim C3 (code bug): at the void edge-value instantiation the
invariant `row_offsets[|V|] == |col_targets|` fails.  Loading the
sorted list `(0,1) (1,0)` succeeds with `row_offsets = [0,0,0]` — the
resize fill is the edge-value vector's size (csr_graph.hpp:605-606 and
618-619), constantly 0 for `EV = void` — so `row_offsets[|V|] = 0`
while `|col_targets| = 2`. -/
theorem c3_invariants_void_breaks :
    load_edges false (emptyState Unit Unit) voidPairEdges 0 = .ok voidPairGraph ∧
    voidPairGraph.row_index = [0, 0, 0] ∧
    voidPairGraph.row_index.getD (numVertices voidPairGraph) 0 = 0 ∧
    voidPairGraph.col_index.length = 2 ∧
    (0 : Nat) ≠ 2 := by
  refine ⟨rfl, rfl, rfl, rfl, by decide⟩

/-- The state of a vertexlist iterator
(`const_vertexlist_iterator`, vertexlist_view.hpp lines 104-149):
the stored identifier counter `value_.first` and the underlying vertex
cursor `iter_`, the cursor modelled by its offset into `vertices(g)`.
(The shadow pointer `value_.second` is refreshed on dereference and
plays no part in equality or increment of the identifier.) -/
structure VertexlistIterator where
  key : Nat
  cursor : Nat
deriving DecidableEq, Repr

/-- `operator++` (lines 127-132): the identifier and the cursor are
incremented in lockstep. -/
def vlNext (it : VertexlistIterator) : VertexlistIterator :=
  ⟨it.key + 1, it.cursor + 1⟩

/-- `operator==` (line 139): `return iter_ == rhs.iter_;` — equality of
the underlying cursors only. -/
def vlEq (a b : VertexlistIterator) : Bool :=
  a.cursor == b.cursor

/-- Modelled from the spec: the cancellation policies of the DFS views
(`cancel_search` in `depth_first_search.hpp`, which is not among the
provided sources; section 4.4 of the specification). -/
inductive cancel_search where
  | cancel_none
  | cancel_branch
  | cancel_all
deriving DecidableEq, Repr

/-- Modelled from the spec: the advance step of the DFS traversal
engine (section 4.4), which is in `depth_first_search.hpp`, not among
the provided sources.  A frame holds the vertex being explored and its
remaining out-edge cursor; the step pops exhausted frames, skips
visited targets, and on a fresh target `v` pre-advances the parent
cursor, marks `v`, pushes the frame `(v, edges(v))` and yields `v`.
The fuel argument only bounds the number of pop/skip steps and is
immaterial whenever it exceeds the stack size plus the pending edge
count. -/
def dfs_advance (adj : Nat → List Nat) : Nat → List (Nat × List Nat) → List Bool →
    Option (Nat × List (Nat × List Nat) × List Bool)
  | 0, _, _ => none
  | _ + 1, [], _ => none
  | fuel + 1, (_, []) :: rest, vis => dfs_advance adj fuel rest vis
  | fuel + 1, (u, v :: cur) :: rest, vis =>
    if vis.getD v false then dfs_advance adj fuel ((u, cur) :: rest) vis
    else some (v, (v, adj v) :: (u, cur) :: rest, vis.set v true)

/-- Modelled from the spec: the complete lazy DFS run (sections 4.4 and
8), yielding discovered vertex ids; after each yield the cancellation
policy is consulted — `cancel_branch` pops exactly the frame pushed by
the yield before the next advance, `cancel_all` stops the run.  The
first fuel bounds the number of yields (at most `|V|` can occur), the
second is passed to each advance. -/
def dfs_run (adj : Nat → List Nat) (policy : Nat → cancel_search) :
    Nat → Nat → List (Nat × List Nat) → List Bool → List Nat
  | 0, _, _, _ => []
  | fuel + 1, afuel, stack, vis =>
    match dfs_advance adj afuel stack vis with
    | none => []
    | some (v, stack2, vis2) =>
      v ::
        match policy v with
        | .cancel_none => dfs_run adj policy fuel afuel stack2 vis2
        | .cancel_branch => dfs_run adj policy fuel afuel stack2.tail vis2
        | .cancel_all => []

/-- Modelled from the spec: traversal initialization (section 4.4) —
the seed is marked visited and one frame with the seed's full edge
cursor is pushed.  The visited bitmap has `|V|` entries. -/
def dfs_init (adj : Nat → List Nat) (n seed : Nat) : List (Nat × List Nat) × List Bool :=
  ([(seed, adj seed)], (List.replicate n false).set seed true)

/-- Adjacency of the German-routes CSR graph: `edges(g, uid)` targets. -/
def germany_adj (u : Nat) : List Nat := edgeTargets germanyGraph u

/-- The complete DFS vertex yield sequence from seed 0 (Frankfurt). -/
def dfs_vertex_yields : List Nat :=
  dfs_run germany_adj (fun _ => .cancel_none) 20 100
    (dfs_init germany_adj 10 0).1 (dfs_init germany_adj 10 0).2

/-- The DFS vertex yield sequence from seed 0 with `cancel_branch`
requested after vertex 4 (Würzburg) is yielded. -/
def dfs_branch_yields : List Nat :=
  dfs_run germany_adj (fun v => if v = 4 then .cancel_branch else .cancel_none) 20 100
    (dfs_init germany_adj 10 0).1 (dfs_init germany_adj 10 0).2

/-- Claim C2: after `load_edges` on the nine German-routes edges, the
graph has 10 vertices, 9 edges, `row_offsets = [0,3,4,5,6,8,9,9,9,9,9]`
and `col_targets = [1,4,6,2,3,8,5,7,9]` (edge values parallel to the
targets). -/
theorem c2_csr_load :
    load_edges true (emptyState Nat Unit) germanyEdges 0 =
      .ok ⟨[0, 3, 4, 5, 6, 8, 9, 9, 9, 9, 9], [1, 4, 6, 2, 3, 8, 5, 7, 9],
           [85, 217, 173, 80, 250, 84, 103, 186, 183], []⟩ ∧
    numVertices germanyGraph = 10 ∧
    germanyGraph.col_index.length = 9 ∧
    germanyGraph.row_index = [0, 3, 4, 5, 6, 8, 9, 9, 9, 9, 9] ∧
    germanyGraph.col_index = [1, 4, 6, 2, 3, 8, 5, 7, 9] := by
  refine ⟨rfl, rfl, rfl, rfl, rfl⟩

/-- Claim C6: loading an empty edge sequence leaves the graph empty:
`row_offsets` and `col_targets` have length zero (no terminating
sentinel row is added), the vertex count is zero, and enumerating
`vertices(g)` yields nothing. -/
theorem c6_empty_load (EV VV : Type) [Inhabited VV] (evp : Bool) (vertex_count : Nat) :
    load_edges evp (emptyState EV VV) [] vertex_count = .ok (emptyState EV VV) ∧
    (emptyState EV VV).row_index.length = 0 ∧
    (emptyState EV VV).col_index.length = 0 ∧
    numVertices (emptyState EV VV) = 0 ∧
    verticesOf (emptyState EV VV) = [] := by
  refine ⟨rfl, rfl, rfl, rfl, rfl⟩

/-- Claim C9: equality of vertexlist iterators over the same graph is
determined by the underlying vertex cursor alone; iterators whose
cursors agree compare equal even when their stored identifier counters
differ. -/
theorem c9_vertexlist_eq_by_cursor (a b : VertexlistIterator) :
    (vlEq a b = true ↔ a.cursor = b.cursor) := by
  simp [vlEq]

/-- Claim C4 (code bug): `load_vertices` computes
`max(vertex_count, stream size)` but resizes `vertex_values` to the
stream size alone, so a pair whose id is below the requested vertex
count but not below the stream size fails with `IdOutOfRange`:
here the single pair `(1, 42)` with `vertex_count = 2` fails even
though the claimed growth to `max(|V|, 2, 1) = 2` would admit it. -/
theorem c4_load_vertices_ignores_hint :
    load_vertices (emptyState Nat Nat) [(1, 42)] 2 = .error .IdOutOfRange ∧
    load_row_values ([] : List Nat) [(1, 42)] 2 = .error .IdOutOfRange := by
  refine ⟨rfl, rfl⟩

theorem assignLoop_length {VV : Type} :
    ∀ {vs : List (Nat × VV)} {acc out : List VV},
      assignLoop acc vs = .ok out → out.length = acc.length := by
  intro vs
  induction vs with
  | nil =>
    intro acc out h
    simp only [assignLoop] at h
    cases h
    rfl
  | cons p rest ih =>
    intro acc out h
    obtain ⟨id, v⟩ := p
    simp only [assignLoop] at h
    split at h
    · exact (ih h).trans (List.length_set acc id v)
    · cases h

theorem assignLoop_untouched {VV : Type} :
    ∀ {vs : List (Nat × VV)} {acc out : List VV} {id : Nat},
      assignLoop acc vs = .ok out → (∀ p ∈ vs, p.1 ≠ id) → out[id]? = acc[id]? := by
  intro vs
  induction vs with
  | nil =>
    intro acc out id h _
    simp only [assignLoop] at h
    cases h
    rfl
  | cons p rest ih =>
    intro acc out id h hne
    obtain ⟨j, w⟩ := p
    simp only [assignLoop] at h
    split at h
    · have hj : j ≠ id := hne (j, w) (by simp)
      have := ih h (fun q hq => hne q (by simp [hq]))
      rw [this, List.getElem?_set_ne hj]
    · cases h

theorem assignLoop_last_wins {VV : Type} :
    ∀ {vs : List (Nat × VV)} {acc out : List VV} {id : Nat} {v : VV},
      assignLoop acc vs = .ok out → lastAssigned id vs = some v → out[id]? = some v := by
  intro vs
  induction vs with
  | nil =>
    intro acc out id v _ hl
    simp [lastAssigned] at hl
  | cons p rest ih =>
    intro acc out id v h hl
    obtain ⟨j, w⟩ := p
    simp only [assignLoop] at h
    split at h
    case isTrue hjlen =>
      by_cases hj : j = id
      · subst hj
        have hfc : List.filter (fun p => p.1 == j) ((j, w) :: rest) =
            (j, w) :: rest.filter (fun p => p.1 == j) := by
          simp [List.filter_cons]
        rcases hfr : rest.filter (fun p => p.1 == j) with _ | ⟨q, L⟩
        · simp only [lastAssigned, hfc, hfr] at hl
          simp only [List.getLast?_singleton, Option.map_some] at hl
          cases hl
          have hnone : ∀ p ∈ rest, p.1 ≠ j := by
            intro q hq
            have := List.filter_eq_nil_iff.mp hfr q hq
            simpa using this
          rw [assignLoop_untouched h hnone]
          exact List.getElem?_set_self hjlen
        · simp only [lastAssigned, hfc, hfr, List.getLast?_cons_cons] at hl
          exact ih h (by simp only [lastAssigned, hfr]; exact hl)
      · have : lastAssigned id rest = some v := by
          simpa only [lastAssigned, List.filter_cons, beq_iff_eq, if_neg hj] using hl
        exact ih h this
    · cases h

/-- Claim C10: when the vertex input sequence contains several pairs
with the same id, the value stored at that id after a successful
`load_vertices` is the value of the last such pair in iteration order. -/
theorem c10_duplicate_ids_last_wins {EV VV : Type} [Inhabited VV]
    (g : CsrState EV VV) (vs : List (Nat × VV)) (vertex_count : Nat)
    (g2 : CsrState EV VV) (id : Nat) (v : VV)
    (hok : load_vertices g vs vertex_count = .ok g2)
    (hlast : lastAssigned id vs = some v) :
    g2.v_values[id]? = some v := by
  simp only [load_vertices, load_row_values] at hok
  split at hok
  case h_1 vv heq =>
    cases hok
    exact assignLoop_last_wins heq hlast
  case h_2 => cases hok

/-- Witness for C10: loading the pairs `(0,1)` then `(0,2)` into an
empty graph stores `2` at vertex 0. -/
theorem loadLoop_out_of_order {EV : Type} (evp : Bool) :
    ∀ (pre : List (CopyableEdge EV)) (a e : CopyableEdge EV) (rest : List (CopyableEdge EV))
      (p : CopyableEdge EV) (row col : List Nat) (vals : List EV) (lu mv : Nat),
      List.Chain' (fun x y => x.source_id ≤ y.source_id) (a :: pre) →
      (a :: pre).getLast? = some p → e.source_id < p.source_id → lu ≤ a.source_id →
      loadLoop evp ((a :: pre) ++ e :: rest) row col vals lu mv = .error .OutOfOrder := by
  intro pre
  induction pre with
  | nil =>
    intro a e rest p row col vals lu mv _ hlast hlt hlu
    have hp : p = a := by
      rw [List.getLast?_singleton] at hlast
      exact (Option.some.inj hlast).symm
    subst hp
    simp only [List.cons_append, List.nil_append, loadLoop]
    rw [if_neg (Nat.not_lt.mpr hlu), if_pos hlt]
  | cons b pre' ih =>
    intro a e rest p row col vals lu mv hchain hlast hlt hlu
    have hab : a.source_id ≤ b.source_id := (List.chain'_cons.mp hchain).1
    have hchain2 : List.Chain' (fun x y => x.source_id ≤ y.source_id) (b :: pre') :=
      (List.chain'_cons.mp hchain).2
    have hlast2 : (b :: pre').getLast? = some p := by
      rw [List.getLast?_cons_cons] at hlast
      exact hlast
    simp only [List.cons_append, loadLoop]
    rw [if_neg (Nat.not_lt.mpr hlu)]
    exact ih b e rest p _ _ _ _ _ hchain2 hlast2 hlt hab

/-- Claim C5: `load_edges` on a non-empty graph fails with `NotEmpty`;
`load_edges` over a sequence containing a record whose `source_id`
regresses below its predecessor's fails with `OutOfOrder` at that
record (the records before it are processed, everything after it is
irrelevant to the outcome). -/
theorem c5_not_empty_and_out_of_order :
    (∀ (EV VV : Type) (inst : Inhabited VV) (evp : Bool) (g : CsrState EV VV)
       (es : List (CopyableEdge EV)) (vc : Nat),
       (g.row_index ≠ [] ∨ g.col_index ≠ [] ∨ g.e_values ≠ []) →
       load_edges evp g es vc = .error .NotEmpty) ∧
    (∀ (EV VV : Type) (inst : Inhabited VV) (evp : Bool) (pre : List (CopyableEdge EV))
       (e : CopyableEdge EV) (rest : List (CopyableEdge EV)) (p : CopyableEdge EV) (vc : Nat),
       List.Chain' (fun x y => x.source_id ≤ y.source_id) pre →
       pre.getLast? = some p → e.source_id < p.source_id →
       load_edges evp (emptyState EV VV) (pre ++ e :: rest) vc = .error .OutOfOrder) := by
  constructor
  · intro EV VV inst evp g es vc h
    have hcond : (g.row_index.isEmpty && g.col_index.isEmpty && g.e_values.isEmpty) = false := by
      rcases h with h | h | h <;> simp [h]
    simp [load_edges, hcond]
  · intro EV VV inst evp pre e rest p vc hchain hlast hlt
    have hne : pre ≠ [] := by
      intro hnil
      rw [hnil] at hlast
      cases hlast
    obtain ⟨a, pre', rfl⟩ := List.exists_cons_of_ne_nil hne
    have hloop := loadLoop_out_of_order evp pre' a e rest p [] [] ([] : List EV) 0 0
      hchain hlast hlt (Nat.zero_le _)
    rw [List.cons_append] at hloop
    simp [load_edges, emptyState, hloop]

/-- Witness for C5: a graph holding one loaded edge rejects a second
load with `NotEmpty`, and the regressing sequence
`(1,2) (0,3)` is rejected with `OutOfOrder`. -/
theorem c5_not_empty_and_out_of_order_witness :
    load_edges true (⟨[0, 1, 1], [1], [5], []⟩ : CsrState Nat Nat) [] 0 = .error .NotEmpty ∧
    load_edges true (emptyState Nat Nat) [⟨1, 2, 7⟩, ⟨0, 3, 9⟩] 0 = .error .OutOfOrder := by
  constructor
  · exact c5_not_empty_and_out_of_order.1 Nat Nat inferInstance true ⟨[0, 1, 1], [1], [5], []⟩
      [] 0 (Or.inl (by simp))
  · exact c5_not_empty_and_out_of_order.2 Nat Nat inferInstance true [⟨1, 2, 7⟩] ⟨0, 3, 9⟩ []
      ⟨1, 2, 7⟩ 0 (List.chain'_singleton _) (by rfl) (by decide)

theorem c10_duplicate_ids_last_wins_witness :
    ((⟨[], [], [], [2, 0]⟩ : CsrState Nat Nat)).v_values[0]? = some 2 :=
  c10_duplicate_ids_last_wins (emptyState Nat Nat) [(0, 1), (0, 2)] 0
    ⟨[], [], [], [2, 0]⟩ 0 2 (by rfl) (by rfl)

/-- Claim C7: the complete DFS vertex traversal of the ten-vertex
German-routes graph from seed 0 yields exactly nine elements, in the
order of vertex ids 1, 2, 3, 8, 4, 5, 9, 7, 6, and the seed vertex is
never yielded. -/
theorem c7_dfs_vertex_order :
    dfs_vertex_yields = [1, 2, 3, 8, 4, 5, 9, 7, 6] ∧
    dfs_vertex_yields.length = 9 ∧
    0 ∉ dfs_vertex_yields := by
  refine ⟨by rfl, by rfl, by decide⟩

theorem dfs_advance_pushes_yield (adj : Nat → List Nat) :
    ∀ (afuel : Nat) (stack : List (Nat × List Nat)) (vis : List Bool)
      (v : Nat) (stack2 : List (Nat × List Nat)) (vis2 : List Bool),
      dfs_advance adj afuel stack vis = some (v, stack2, vis2) →
      stack2.head? = some (v, adj v) := by
  intro afuel
  induction afuel with
  | zero =>
    intro stack vis v stack2 vis2 h
    cases h
  | succ fuel ih =>
    intro stack vis v stack2 vis2 h
    rcases stack with _ | ⟨⟨u, cur⟩, rest⟩
    · cases h
    · rcases cur with _ | ⟨w, cur2⟩
      · exact ih rest vis v stack2 vis2 h
      · simp only [dfs_advance] at h
        split at h
        · exact ih _ vis v stack2 vis2 h
        · cases h
          rfl

/-- Claim C8: `cancel_branch` requested after a yield pops exactly one
stack frame — the frame pushed by that yield, which sits on top of the
stack — before the next advance; on the German-routes graph a
`cancel_branch` after vertex 4 (Würzburg) skips the entire Würzburg
subtree (5, 9, 7) and the run yields six elements in total. -/
theorem c8_cancel_branch :
    (∀ (afuel : Nat) (adj : Nat → List Nat) (stack : List (Nat × List Nat)) (vis : List Bool)
       (v : Nat) (stack2 : List (Nat × List Nat)) (vis2 : List Bool),
       dfs_advance adj afuel stack vis = some (v, stack2, vis2) →
       stack2.head? = some (v, adj v)) ∧
    (∀ (adj : Nat → List Nat) (policy : Nat → cancel_search) (fuel afuel : Nat)
       (stack : List (Nat × List Nat)) (vis : List Bool)
       (v : Nat) (stack2 : List (Nat × List Nat)) (vis2 : List Bool),
       dfs_advance adj afuel stack vis = some (v, stack2, vis2) →
       policy v = .cancel_branch →
       dfs_run adj policy (fuel + 1) afuel stack vis =
         v :: dfs_run adj policy fuel afuel stack2.tail vis2) ∧
    dfs_branch_yields = [1, 2, 3, 8, 4, 6] ∧
    dfs_branch_yields.length = 6 ∧
    5 ∉ dfs_branch_yields ∧ 9 ∉ dfs_branch_yields ∧ 7 ∉ dfs_branch_yields := by
  refine ⟨fun afuel adj => dfs_advance_pushes_yield adj afuel, ?_, by rfl, by rfl,
    by decide, by decide, by decide⟩
  intro adj policy fuel afuel stack vis v stack2 vis2 hadv hpol
  simp only [dfs_run, hadv, hpol]

/-- Witness for C8: the first advance on the German-routes graph yields
vertex 1 with the freshly pushed frame `(1, edges(1))` on top, and a
`cancel_branch` policy makes the run continue past vertex 1 on the
popped stack. -/
theorem c8_cancel_branch_witness :
    ([(1, germany_adj 1), (0, [4, 6])] : List (Nat × List Nat)).head? =
      some (1, germany_adj 1) ∧
    dfs_run germany_adj (fun _ => .cancel_branch) 6 100
        [(0, germany_adj 0)] ((List.replicate 10 false).set 0 true) =
      1 :: dfs_run germany_adj (fun _ => .cancel_branch) 5 100
        ([(1, germany_adj 1), (0, [4, 6])] : List (Nat × List Nat)).tail
        [true, true, false, false, false, false, false, false, false, false] :=
  ⟨c8_cancel_branch.1 100 germany_adj [(0, germany_adj 0)]
      ((List.replicate 10 false).set 0 true) 1 [(1, germany_adj 1), (0, [4, 6])]
      [true, true, false, false, false, false, false, false, false, false] (by rfl),
   c8_cancel_branch.2.1 germany_adj (fun _ => .cancel_branch) 5 100
      [(0, germany_adj 0)] ((List.replicate 10 false).set 0 true) 1
      [(1, germany_adj 1), (0, [4, 6])]
      [true, true, false, false, false, false, false, false, false, false]
      (by rfl) (by rfl)⟩
